import Mathlib

/-!
# DuckyManager: the drawing layer (`drawing.go`)

A shallow embedding of the terminal drawing routines of DuckyManager.  The
console library is modelled by the log of `SetCell` calls a routine makes, in
call order; machine integers are mathematical integers (terminal coordinates
stay far away from the 64-bit range).  Strings are Lean strings: `range msg`
walks the code points (`String.toList`) and `len(msg)` is the UTF-8 byte
length (`String.utf8ByteSize`).
-/

namespace DuckyManager

/-- Cell attributes of the console library that `drawing.go` passes around.
`coldef` is the package-level default colour declared outside `drawing.go`. -/
inductive Attribute where
  | coldef
  | AttrBold
  | AttrUnderline
  | AttrReverse
  | ColorRed
  deriving DecidableEq, Repr

/-- One call `termbox.SetCell(x, y, ch, fg, bg)`. -/
structure SetCell where
  x : Int
  y : Int
  ch : Char
  fg : Attribute
  bg : Attribute
  deriving DecidableEq, Repr

/-- The continuation marker glyph written by `guiPrint`. -/
def marker : Char := '→'

/-- The `for _, c := range msg` loop of `guiPrint` (drawing.go:26-33), over the
code points still to print; `runeWidth` stands for `runewidth.RuneWidth`. -/
def guiPrintLoop (runeWidth : Char → Int) (y w : Int) (fg bg : Attribute) :
    Int → List Char → List SetCell
  | _, [] => []
  | x, c :: cs =>
    if x = w then
      [⟨x - 1, y, marker, fg, bg⟩]
    else
      ⟨x, y, c, fg, bg⟩ :: guiPrintLoop runeWidth y w fg bg (x + runeWidth c) cs

/-- Embedding of `guiPrint(x, y, w, fg, bg, msg)` (drawing.go:21-34): the `SetCell` calls
it makes, in order. -/
def guiPrint (runeWidth : Char → Int) (x y w : Int) (fg bg : Attribute)
    (msg : String) : List SetCell :=
  guiPrintLoop runeWidth y w fg bg x msg.toList

/-- Whether the loop of `guiPrint` takes its `x == w` branch (writes the
marker and breaks) on the code points given. -/
def guiPrintTruncates (runeWidth : Char → Int) (w : Int) : Int → List Char → Bool
  | _, [] => false
  | x, c :: cs =>
    if x = w then true else guiPrintTruncates runeWidth w (x + runeWidth c) cs

/-- What a cell shows after a sequence of `SetCell` calls: the character and
attributes of the last call addressed to `(x, y)`, if any. -/
def cellAt : List SetCell → Int → Int → Option (Char × Attribute × Attribute)
  | [], _, _ => none
  | c :: cs, x, y =>
    match cellAt cs x y with
    | some v => some v
    | none => if c.x = x ∧ c.y = y then some (c.ch, c.fg, c.bg) else none

/-- Cells `msg[0], msg[1], ...` written left to right from column `x`, one
column each: what `guiPrint` writes when nothing is cut. -/
def plainCells (y : Int) (fg bg : Attribute) : Int → List Char → List SetCell
  | _, [] => []
  | x, c :: cs => ⟨x, y, c, fg, bg⟩ :: plainCells y fg bg (x + 1) cs

/-- One call `guiPrint(currentLen, line, w, termbox.AttrBold, coldef, string(c))`
made by the loop of `printSideInfo` (drawing.go:128). -/
structure ValuePrint where
  currentLen : Int
  line : Int
  c : Char
  deriving DecidableEq, Repr

/-- The cells one such call writes. -/
def ValuePrint.cells (runeWidth : Char → Int) (w : Int) (p : ValuePrint) : List SetCell :=
  guiPrint runeWidth p.currentLen p.line w .AttrBold .coldef (String.singleton p.c)

/-- The one cell such a call writes: `guiPrint` on a one-character string
either writes the character at `currentLen` or, when `currentLen == w`, the
marker one column to the left. -/
def ValuePrint.cell (w : Int) (p : ValuePrint) : SetCell :=
  if p.currentLen = w then ⟨p.currentLen - 1, p.line, marker, .AttrBold, .coldef⟩
  else ⟨p.currentLen, p.line, p.c, .AttrBold, .coldef⟩

/-- The `for _, c := range msg` loop of `printSideInfo` (drawing.go:118-136)
from the state `(line, letterCount)` over the code points still to lay out:
the `guiPrint` calls it makes, in order, and the final `line`. -/
def printSideInfoLoop (x y w titleLen dotLen : Int) :
    Int → Int → List Char → List ValuePrint × Int
  | line, _, [] => ([], line)
  | line, letterCount, c :: cs =>
    let currentLen :=
      if line = y then x + titleLen + dotLen + letterCount else x + letterCount
    let wrap : Bool := decide (currentLen - x + 4 > w)
    let line1 := if wrap then line + 1 else line
    let letterCount1 := if wrap then 0 else letterCount
    let rest := printSideInfoLoop x y w titleLen dotLen line1 (letterCount1 + 1) cs
    (⟨currentLen, line, c⟩ :: rest.1, rest.2)

/-- What `printSideInfo` does: the cells of the label and separator, the
`guiPrint` calls of the loop over the value with the cells they write, and
the returned `line`. -/
structure SideInfo where
  labelCells : List SetCell
  valuePrints : List ValuePrint
  valueCells : List SetCell
  line : Int
  deriving DecidableEq, Repr

/-- Every `SetCell` call of one `printSideInfo` call, in order. -/
def SideInfo.cells (r : SideInfo) : List SetCell :=
  r.labelCells ++ r.valueCells

/-- Embedding of `printSideInfo(x, y, w, h, title, msg)` (drawing.go:104-150);
the parameter `h` is not used by the source either. -/
def printSideInfo (runeWidth : Char → Int) (x y w _h : Int)
    (title msg : String) : SideInfo :=
  let dotLen : Int := ": ".utf8ByteSize
  let titleLen : Int := title.utf8ByteSize
  let line := y
  let c1 := guiPrint runeWidth x line w .AttrUnderline .coldef title
  let c2 := guiPrint runeWidth (x + titleLen) line w Attribute.coldef Attribute.coldef ": "
  let r := printSideInfoLoop x y w titleLen dotLen line 0 msg.toList
  ⟨c1 ++ c2, r.1, (r.1.map (ValuePrint.cells runeWidth w)).flatten, r.2⟩

/-- The fields of a `Script` that `drawing.go` reads. -/
structure Script where
  Name : String
  User : String
  Tags : String
  Desc : String
  deriving DecidableEq, Repr

/-- The entries of the string table `translate` that `sidebarDraw` reads; the
table itself is declared outside `drawing.go`. -/
structure Translation where
  SidebarTitle : String
  SidebarBy : String
  SidebarTags : String
  SidebarDesc : String
  deriving DecidableEq, Repr

/-- One labeled field of the sidebar: the row passed to `printSideInfo` as
`y` and what that call did. -/
structure SideField where
  anchor : Int
  info : SideInfo
  deriving DecidableEq, Repr

/-- The four `printSideInfo` calls of `sidebarDraw` (drawing.go:91-101), in
order (the source reuses one variable `lines` for the three returned rows);
`cur` is `currentState.GetCurrentScript()`.  The division of Go truncates. -/
def sidebarFields (runeWidth : Char → Int) (translate : Translation)
    (totalW totalH : Int) (cur : Script) : List SideField :=
  let w := totalW.tdiv 3
  let h := totalH
  let x := totalW - w
  let y := totalH - h
  let f1 := printSideInfo runeWidth (x + 2) (y + 1) w h translate.SidebarTitle cur.Name
  let lines1 := f1.line
  let f2 := printSideInfo runeWidth (x + 2) (y + 2 + lines1) w h translate.SidebarBy cur.User
  let lines2 := f2.line
  let f3 := printSideInfo runeWidth (x + 2) (y + 2 + lines2) w h translate.SidebarTags cur.Tags
  let lines3 := f3.line
  let f4 := printSideInfo runeWidth (x + 2) (y + 2 + lines3) w h translate.SidebarDesc cur.Desc
  [⟨y + 1, f1⟩, ⟨y + 2 + lines1, f2⟩, ⟨y + 2 + lines2, f3⟩, ⟨y + 2 + lines3, f4⟩]

/-- Embedding of `sidebarDraw(totalW, totalH, currentState)` (drawing.go:78-102): the left
border line, then the four fields. -/
def sidebarDraw (runeWidth : Char → Int) (translate : Translation)
    (totalW totalH : Int) (cur : Script) : List SetCell :=
  let w := totalW.tdiv 3
  let h := totalH
  let x := totalW - w
  let y := totalH - h
  let border : List SetCell :=
    (List.range (h - y).toNat).map
      (fun k => ⟨x, y + (k : Int), '│', .coldef, .coldef⟩)
  border ++ ((sidebarFields runeWidth translate totalW totalH cur).map
    (fun f => f.info.cells)).flatten

/-- The fields of `State` that `drawing.go` reads. -/
structure State where
  Scripts : List Script
  Position : Int
  PositionUpper : Int
  Title : String
  deriving DecidableEq, Repr

/-- The loop of `listScripts` (drawing.go:64-74).  `remaining` is
`len(Scripts) - c`, so the guard `c < len(Scripts)` is `remaining ≠ 0`; the
guard `c < h` is tested explicitly.  `none` is the run-time panic of an index
outside `Scripts`. -/
def listScriptsLoop (runeWidth : Char → Int) (getName : Script → String)
    (scripts : List Script) (position x y w h : Int) :
    Nat → Int → Int → Option (List SetCell)
  | 0, _, _ => some []
  | remaining + 1, i, c =>
    if c < h then
      if i < 0 then none
      else
        match scripts[i.toNat]? with
        | none => none
        | some s =>
          let name := getName s
          let row :=
            if i = position then guiPrint runeWidth (x + 1) (y + c) w .AttrBold .coldef name
            else guiPrint runeWidth (x + 1) (y + c) w .coldef .coldef name
          match listScriptsLoop runeWidth getName scripts position x y w h
              remaining (i + 1) (c + 1) with
          | none => none
          | some rest => some (row ++ rest)
    else some []

/-- Embedding of `listScripts(totalW, totalH, currentState)` (drawing.go:54-76).
`sortScripts` stands for `SortScripts` and `getName` for `Script.GetName`,
both declared outside `drawing.go`. -/
def listScripts (runeWidth : Char → Int) (sortScripts : List Script → List Script)
    (getName : Script → String) (totalW totalH : Int) (currentState : State) :
    Option (List SetCell) :=
  let w := (totalW * 2).tdiv 3
  let h := totalH
  let x : Int := 0
  let y := totalH - h
  let scripts := sortScripts currentState.Scripts
  listScriptsLoop runeWidth getName scripts currentState.Position x y w h
    scripts.length currentState.PositionUpper 0

/-- The keys `editableMenuSwitchKey` tells apart; `other` is every other key
code (a printable character arrives with such a key code and its `Ch`). -/
inductive Key where
  | KeyTab
  | KeyEnter
  | KeyCtrlC
  | KeyEsc
  | KeyArrowLeft
  | KeyArrowRight
  | KeyBackspace
  | KeyBackspace2
  | KeyDelete
  | KeySpace
  | KeyHome
  | KeyEnd
  | other
  deriving DecidableEq, Repr

/-- The event kinds `editableMenu` tells apart; `other` is every other kind
(resize, mouse, interrupt). -/
inductive EventType where
  | EventKey
  | EventError
  | other
  deriving DecidableEq, Repr

/-- The fields of `termbox.Event` that `drawing.go` reads. -/
structure Event where
  type : EventType
  key : Key
  ch : Char
  err : String
  deriving DecidableEq, Repr

/-- Modelled from the spec: the type `editBox` and its methods are declared
outside `drawing.go`.  Following section 4.1 of the specification, the box is
a sequence of code points with a cursor offset into it. -/
structure editBox where
  text : List Char
  cursor : Nat
  deriving DecidableEq, Repr

/-- Modelled from the spec: `InsertRune(r)` of `editBox`, not in `drawing.go`:
inserts `r` at the cursor and advances the cursor by one. -/
def editBox.InsertRune (eB : editBox) (r : Char) : editBox :=
  ⟨eB.text.take eB.cursor ++ r :: eB.text.drop eB.cursor, eB.cursor + 1⟩

/-- Modelled from the spec: `DeleteRuneBackward()` of `editBox`, not in
`drawing.go`: removes the code point before the cursor, if there is one. -/
def editBox.DeleteRuneBackward (eB : editBox) : editBox :=
  if eB.cursor > 0 then
    ⟨eB.text.take (eB.cursor - 1) ++ eB.text.drop eB.cursor, eB.cursor - 1⟩
  else eB

/-- Modelled from the spec: `DeleteRuneForward()` of `editBox`, not in
`drawing.go`: removes the code point at the cursor, if there is one. -/
def editBox.DeleteRuneForward (eB : editBox) : editBox :=
  if eB.cursor < eB.text.length then
    ⟨eB.text.take eB.cursor ++ eB.text.drop (eB.cursor + 1), eB.cursor⟩
  else eB

/-- Modelled from the spec: `MoveCursorOneRuneBackward()` of `editBox`, not in
`drawing.go`: one code point to the left, staying at the beginning. -/
def editBox.MoveCursorOneRuneBackward (eB : editBox) : editBox :=
  if eB.cursor > 0 then ⟨eB.text, eB.cursor - 1⟩ else eB

/-- Modelled from the spec: `MoveCursorOneRuneForward()` of `editBox`, not in
`drawing.go`: one code point to the right, staying at the end. -/
def editBox.MoveCursorOneRuneForward (eB : editBox) : editBox :=
  if eB.cursor < eB.text.length then ⟨eB.text, eB.cursor + 1⟩ else eB

/-- Modelled from the spec: `MoveCursorToBeginningOfTheLine()` of `editBox`,
not in `drawing.go`. -/
def editBox.MoveCursorToBeginningOfTheLine (eB : editBox) : editBox :=
  ⟨eB.text, 0⟩

/-- Modelled from the spec: `MoveCursorToEndOfTheLine()` of `editBox`, not in
`drawing.go`. -/
def editBox.MoveCursorToEndOfTheLine (eB : editBox) : editBox :=
  ⟨eB.text, eB.text.length⟩

/-- The constant `actionTab` (drawing.go:210). -/
def actionTab : Int := 0

/-- The constant `actionEnter` (drawing.go:211). -/
def actionEnter : Int := 1

/-- The constant `actionEsc` (drawing.go:212). -/
def actionEsc : Int := 2

/-- Embedding of `editableMenuSwitchKey(eB, ev)` (drawing.go:220-255): the edit box after
the key and the returned action. -/
def editableMenuSwitchKey (eB : editBox) (ev : Event) : editBox × Int :=
  match ev.key with
  | .KeyTab => (eB, actionTab)
  | .KeyEnter => (eB, actionEnter)
  | .KeyCtrlC => (eB, actionEsc)
  | .KeyEsc => (eB, actionEsc)
  | .KeyArrowLeft => (eB.MoveCursorOneRuneBackward, -1)
  | .KeyArrowRight => (eB.MoveCursorOneRuneForward, -1)
  | .KeyBackspace => (eB.DeleteRuneBackward, -1)
  | .KeyBackspace2 => (eB.DeleteRuneBackward, -1)
  | .KeyDelete => (eB.DeleteRuneForward, -1)
  | .KeySpace => (eB.InsertRune (Char.ofNat 32), -1)
  | .KeyHome => (eB.MoveCursorToBeginningOfTheLine, -1)
  | .KeyEnd => (eB.MoveCursorToEndOfTheLine, -1)
  | .other => if ev.ch ≠ Char.ofNat 0 then (eB.InsertRune ev.ch, -1) else (eB, -1)

/-- What the console hands to one pass of the loop of `editableMenu`: either
`printEditBox` fails with an error, or it succeeds and `PollEvent` returns an
event. -/
inductive Frame where
  | printFailed (err : String)
  | polled (ev : Event)
  deriving DecidableEq, Repr

/-- The variables of `editableMenu` at the top of its loop: the strings the
`values` pointers refer to, the edit box, the index of the field being edited
and the last action. -/
structure MenuState where
  values : List String
  eB : editBox
  currentValue : Nat
  action : Int
  deriving DecidableEq, Repr

/-- How a run of `editableMenu` over finitely many frames ends: a run-time
panic (index outside `values` or `titles`), a return (with the error, if any,
and the strings behind `values`), or still waiting for the next event. -/
inductive MenuResult where
  | panicked
  | returned (err : Option String) (values : List String)
  | waiting (s : MenuState)
  deriving DecidableEq, Repr

/-- The loop of `editableMenu` (drawing.go:178-204) over the frames the
console supplies. -/
def editableMenuLoop (titles : List String) : List Frame → MenuState → MenuResult
  | frames, s =>
    if s.action = actionEnter then .returned none s.values
    else
      match s.values[s.currentValue]? with
      | none => .panicked
      | some v =>
        let eB : editBox := { s.eB with text := v.toList }
        match titles[s.currentValue]? with
        | none => .panicked
        | some _ =>
          match frames with
          | [] => .waiting { s with eB := eB }
          | .printFailed err :: _ => .returned (some err) s.values
          | .polled ev :: rest =>
            let continueWith (eB1 : editBox) (action : Int) : MenuResult :=
              let values := s.values.set s.currentValue (String.mk eB1.text)
              let currentValue :=
                if action = actionTab then
                  if s.currentValue + 1 = values.length then 0 else s.currentValue + 1
                else s.currentValue
              editableMenuLoop titles rest ⟨values, eB1, currentValue, action⟩
            match ev.type with
            | .EventKey =>
              let r := editableMenuSwitchKey eB ev
              if r.2 = actionEsc then .returned none s.values
              else continueWith r.1 r.2
            | .EventError => continueWith eB s.action
            | .other => continueWith eB s.action

/-- Embedding of `editableMenu(titles, values)` (drawing.go:173-207) run over the frames
the console supplies; `values` are the strings the pointers refer to. -/
def editableMenu (titles : List String) (values : List String)
    (frames : List Frame) : MenuResult :=
  editableMenuLoop titles frames ⟨values, ⟨[], 0⟩, 0, -1⟩

/-! ## `guiPrint`: clipping at the boundary column -/

theorem cellAt_append (l1 l2 : List SetCell) (x y : Int) :
    cellAt (l1 ++ l2) x y =
      match cellAt l2 x y with
      | some v => some v
      | none => cellAt l1 x y := by
  induction l1 with
  | nil =>
    simp only [List.nil_append, cellAt]
    cases cellAt l2 x y <;> rfl
  | cons c cs ih =>
    show cellAt (c :: (cs ++ l2)) x y = _
    simp only [cellAt]
    rw [ih]
    cases cellAt l2 x y <;> rfl

theorem mem_plainCells (y : Int) (fg bg : Attribute) (cs : List Char) :
    ∀ (x : Int) (c : SetCell), c ∈ plainCells y fg bg x cs →
      x ≤ c.x ∧ c.x < x + cs.length ∧ c.y = y := by
  induction cs with
  | nil => intro x c h; simp [plainCells] at h
  | cons a as ih =>
    intro x c h
    simp only [plainCells, List.mem_cons] at h
    rcases h with h | h
    · subst h
      simp only [List.length_cons, Nat.cast_add, Nat.cast_one]
      exact ⟨le_refl _, by omega, trivial⟩
    · have := ih (x + 1) c h
      simp only [List.length_cons, Nat.cast_add, Nat.cast_one]
      omega

theorem cellAt_plainCells_left (y : Int) (fg bg : Attribute) (cs : List Char)
    (x col row : Int) (h : col < x) : cellAt (plainCells y fg bg x cs) col row = none := by
  induction cs generalizing x with
  | nil => rfl
  | cons a as ih =>
    simp only [plainCells, cellAt, ih (x + 1) (by omega)]
    have : ¬ (x = col ∧ y = row) := by omega
    simp [this]

theorem cellAt_plainCells (y : Int) (fg bg : Attribute) (cs : List Char) :
    ∀ (x : Int) (j : Nat) (ch : Char), cs[j]? = some ch →
      cellAt (plainCells y fg bg x cs) (x + j) y = some (ch, fg, bg) := by
  induction cs with
  | nil => intro x j ch h; simp at h
  | cons a as ih =>
    intro x j ch h
    cases j with
    | zero =>
      simp only [List.getElem?_cons_zero, Option.some.injEq] at h
      subst h
      simp only [plainCells, cellAt, Nat.cast_zero, add_zero]
      rw [cellAt_plainCells_left y fg bg as (x + 1) x y (by omega)]
      simp
    | succ j =>
      simp only [List.getElem?_cons_succ] at h
      have := ih (x + 1) j ch h
      simp only [plainCells, cellAt, Nat.cast_add, Nat.cast_one]
      rw [show x + ((j : Int) + 1) = x + 1 + j by ring, this]

theorem guiPrintLoop_single (runeWidth : Char → Int) (y w : Int) (fg bg : Attribute)
    (cs : List Char) :
    ∀ (k : Nat) (x : Int), (∀ c ∈ cs, runeWidth c = 1) → x + k = w →
      guiPrintLoop runeWidth y w fg bg x cs =
        if cs.length ≤ k then plainCells y fg bg x cs
        else plainCells y fg bg x (cs.take k) ++ [⟨w - 1, y, marker, fg, bg⟩] := by
  induction cs with
  | nil => intro k x _ _; simp [guiPrintLoop, plainCells]
  | cons a as ih =>
    intro k x h1 hk
    cases k with
    | zero =>
      have hx : x = w := by simpa using hk
      simp [guiPrintLoop, plainCells, hx]
    | succ k =>
      have hx : x ≠ w := by push_cast at hk; omega
      have ha : runeWidth a = 1 := h1 a (List.mem_cons_self _ _)
      have := ih k (x + 1) (fun c hc => h1 c (List.mem_cons_of_mem _ hc))
        (by push_cast at hk; omega)
      simp only [guiPrintLoop, hx, if_false, ha, this, List.length_cons,
        Nat.add_le_add_iff_right, List.take_succ_cons, plainCells]
      split <;> simp

theorem guiPrintLoop_marker_last (runeWidth : Char → Int) (y w : Int) (fg bg : Attribute)
    (cs : List Char) :
    ∀ x : Int, guiPrintTruncates runeWidth w x cs = true →
      (guiPrintLoop runeWidth y w fg bg x cs).getLast? = some ⟨w - 1, y, marker, fg, bg⟩ := by
  induction cs with
  | nil => intro x h; simp [guiPrintTruncates] at h
  | cons a as ih =>
    intro x h
    by_cases hx : x = w
    · simp [guiPrintLoop, hx]
    · simp only [guiPrintTruncates, hx, if_false] at h
      have := ih _ h
      simp only [guiPrintLoop, hx, if_false]
      cases hl : guiPrintLoop runeWidth y w fg bg (x + runeWidth a) as with
      | nil => rw [hl] at this; simp at this
      | cons b bs => rw [hl] at this; rw [List.getLast?_cons_cons]; exact this

/-- C5. `guiPrint` from column 0 on row `y` with boundary `w ≥ 1` and a string
of single-column characters: when the string has more than `w` characters the
row ends up showing its first `w - 1` characters in columns `0 .. w-2` and the
continuation marker in column `w - 1`, and every cell written is on row `y` in
a column below `w`; when it has at most `w` characters, exactly its characters
are written, one per column from column 0, and each is what its cell shows. -/
theorem guiPrint_clips_to_width (runeWidth : Char → Int) (y w : Int) (fg bg : Attribute)
    (msg : String) (hw : 1 ≤ w) (h1 : ∀ c ∈ msg.toList, runeWidth c = 1) :
    (w < msg.length →
      (∀ (j : Nat) (ch : Char), msg.toList[j]? = some ch → (j : Int) < w - 1 →
        cellAt (guiPrint runeWidth 0 y w fg bg msg) j y = some (ch, fg, bg)) ∧
      cellAt (guiPrint runeWidth 0 y w fg bg msg) (w - 1) y = some (marker, fg, bg) ∧
      ∀ c ∈ guiPrint runeWidth 0 y w fg bg msg, 0 ≤ c.x ∧ c.x < w ∧ c.y = y) ∧
    ((msg.length : Int) ≤ w →
      guiPrint runeWidth 0 y w fg bg msg = plainCells y fg bg 0 msg.toList ∧
      ∀ (j : Nat) (ch : Char), msg.toList[j]? = some ch →
        cellAt (guiPrint runeWidth 0 y w fg bg msg) j y = some (ch, fg, bg)) := by
  have hk : (0 : Int) + (w.toNat : Nat) = w := by omega
  have hlen : msg.length = msg.toList.length := rfl
  have key := guiPrintLoop_single runeWidth y w fg bg msg.toList w.toNat 0 h1 hk
  constructor
  · intro hlt
    have hgt : ¬ msg.toList.length ≤ w.toNat := by rw [hlen] at hlt; omega
    rw [if_neg hgt] at key
    unfold guiPrint
    rw [key]
    refine ⟨?_, ?_, ?_⟩
    · intro j ch hj hjw
      rw [cellAt_append]
      have hne : ¬ (w - 1 = (j : Int)) := by omega
      have hj2 : (msg.toList.take w.toNat)[j]? = some ch := by
        rw [List.getElem?_take_of_lt (by omega)]; exact hj
      have := cellAt_plainCells y fg bg (msg.toList.take w.toNat) 0 j ch hj2
      rw [zero_add] at this
      simp only [cellAt, hne, false_and, if_false]
      exact this
    · rw [cellAt_append]
      simp [cellAt]
    · intro c hc
      simp only [List.mem_append, List.mem_singleton] at hc
      rcases hc with hc | hc
      · have := mem_plainCells y fg bg _ 0 c hc
        have hmin : (msg.toList.take w.toNat).length ≤ w.toNat := List.length_take_le _ _
        obtain ⟨h0, hlt2, hy⟩ := this
        exact ⟨h0, by omega, hy⟩
      · subst hc
        exact ⟨by show (0 : Int) ≤ w - 1; omega, by show w - 1 < w; omega, rfl⟩
  · intro hle
    have hle2 : msg.toList.length ≤ w.toNat := by rw [hlen] at hle; omega
    rw [if_pos hle2] at key
    unfold guiPrint
    rw [key]
    refine ⟨rfl, ?_⟩
    intro j ch hj
    have := cellAt_plainCells y fg bg msg.toList 0 j ch hj
    simpa using this

/-- Witness of C5: the title "Configuration Manager" printed with boundary 10. -/
theorem guiPrint_clips_to_width_witness :
    ((10 : Int) < "Configuration Manager".length →
      (∀ (j : Nat) (ch : Char), "Configuration Manager".toList[j]? = some ch → (j : Int) < 10 - 1 →
        cellAt (guiPrint (fun _ => 1) 0 0 10 Attribute.AttrBold Attribute.coldef "Configuration Manager") j 0
          = some (ch, .AttrBold, .coldef)) ∧
      cellAt (guiPrint (fun _ => 1) 0 0 10 Attribute.AttrBold Attribute.coldef "Configuration Manager") (10 - 1) 0
        = some (marker, .AttrBold, .coldef) ∧
      ∀ c ∈ guiPrint (fun _ => 1) 0 0 10 Attribute.AttrBold Attribute.coldef "Configuration Manager",
        0 ≤ c.x ∧ c.x < 10 ∧ c.y = 0) ∧
    ((("Configuration Manager".length : Nat) : Int) ≤ 10 →
      guiPrint (fun _ => 1) 0 0 10 Attribute.AttrBold Attribute.coldef "Configuration Manager"
        = plainCells 0 .AttrBold .coldef 0 "Configuration Manager".toList ∧
      ∀ (j : Nat) (ch : Char), "Configuration Manager".toList[j]? = some ch →
        cellAt (guiPrint (fun _ => 1) 0 0 10 Attribute.AttrBold Attribute.coldef "Configuration Manager") j 0
          = some (ch, .AttrBold, .coldef)) :=
  guiPrint_clips_to_width (fun _ => 1) 0 10 Attribute.AttrBold Attribute.coldef "Configuration Manager"
    (by decide) (fun _ _ => rfl)

/-! ## `printSideInfo`: the wrapped value -/

theorem ValuePrint.cells_eq (runeWidth : Char → Int) (w : Int) (p : ValuePrint) :
    p.cells runeWidth w = [p.cell w] := by
  show guiPrintLoop runeWidth p.line w .AttrBold .coldef p.currentLen [p.c] = _
  unfold ValuePrint.cell
  by_cases h : p.currentLen = w <;> simp [guiPrintLoop, h]

theorem flatten_cells (runeWidth : Char → Int) (w : Int) (ps : List ValuePrint) :
    (ps.map (ValuePrint.cells runeWidth w)).flatten = ps.map (ValuePrint.cell w) := by
  induction ps with
  | nil => rfl
  | cons p ps ih => simp [ValuePrint.cells_eq, ih]

theorem ValuePrint.cell_y (w : Int) (p : ValuePrint) : (p.cell w).y = p.line := by
  unfold ValuePrint.cell
  split <;> rfl

theorem ValuePrint.cell_x_le (w : Int) (p : ValuePrint) : (p.cell w).x ≤ p.currentLen := by
  unfold ValuePrint.cell
  split
  · show p.currentLen - 1 ≤ p.currentLen
    omega
  · exact le_refl _

theorem printSideInfoLoop_cons (x y w t d line lc : Int) (c : Char) (cs : List Char) :
    printSideInfoLoop x y w t d line lc (c :: cs) =
      (⟨if line = y then x + t + d + lc else x + lc, line, c⟩ ::
        (printSideInfoLoop x y w t d
          (if (if line = y then x + t + d + lc else x + lc) - x + 4 > w then line + 1 else line)
          ((if (if line = y then x + t + d + lc else x + lc) - x + 4 > w then 0 else lc) + 1)
          cs).1,
       (printSideInfoLoop x y w t d
          (if (if line = y then x + t + d + lc else x + lc) - x + 4 > w then line + 1 else line)
          ((if (if line = y then x + t + d + lc else x + lc) - x + 4 > w then 0 else lc) + 1)
          cs).2) := by
  simp only [printSideInfoLoop, decide_eq_true_eq]

theorem printSideInfoLoop_chars (x y w t d : Int) (cs : List Char) :
    ∀ line lc : Int, (printSideInfoLoop x y w t d line lc cs).1.map (fun p => p.c) = cs := by
  induction cs with
  | nil => intro line lc; rfl
  | cons c cs ih =>
    intro line lc
    rw [printSideInfoLoop_cons]
    simp [ih]

theorem printSideInfoLoop_rows (x y w t d : Int) (cs : List Char) :
    ∀ line lc : Int, line ≤ (printSideInfoLoop x y w t d line lc cs).2 ∧
      ∀ p ∈ (printSideInfoLoop x y w t d line lc cs).1,
        line ≤ p.line ∧ p.line ≤ (printSideInfoLoop x y w t d line lc cs).2 := by
  induction cs with
  | nil => intro line lc; simp [printSideInfoLoop]
  | cons c cs ih =>
    intro line lc
    rw [printSideInfoLoop_cons]
    simp only [List.mem_cons]
    have hstep : line ≤
        (if (if line = y then x + t + d + lc else x + lc) - x + 4 > w then line + 1 else line) := by
      split <;> omega
    obtain ⟨h1, h2⟩ := ih
      (if (if line = y then x + t + d + lc else x + lc) - x + 4 > w then line + 1 else line)
      ((if (if line = y then x + t + d + lc else x + lc) - x + 4 > w then 0 else lc) + 1)
    refine ⟨le_trans hstep h1, ?_⟩
    intro p hp
    rcases hp with hp | hp
    · subst hp
      exact ⟨le_refl _, le_trans hstep h1⟩
    · exact ⟨le_trans hstep (h2 p hp).1, (h2 p hp).2⟩

theorem printSideInfoLoop_offset_lt (x y w t d : Int) (hw : 1 < w) (cs : List Char) :
    ∀ line lc : Int, y ≤ line → (if line = y then t + d + lc else lc) < w →
      ∀ p ∈ (printSideInfoLoop x y w t d line lc cs).1, p.currentLen - x < w := by
  induction cs with
  | nil => intro line lc _ _ p hp; simp [printSideInfoLoop] at hp
  | cons c cs ih =>
    intro line lc hline hoff p hp
    rw [printSideInfoLoop_cons] at hp
    simp only [List.mem_cons] at hp
    rcases hp with hp | hp
    · subst hp
      show (if line = y then x + t + d + lc else x + lc) - x < w
      split_ifs at hoff ⊢ <;> omega
    · refine ih _ _ ?_ ?_ p hp
      · split <;> omega
      · split_ifs at hoff ⊢ <;> omega

theorem printSideInfoLoop_last (x y w t d : Int) (cs : List Char) :
    ∀ line lc : Int, cs ≠ [] →
      ∃ p, (printSideInfoLoop x y w t d line lc cs).1.getLast? = some p ∧
        (printSideInfoLoop x y w t d line lc cs).2 =
          if p.currentLen - x + 4 > w then p.line + 1 else p.line := by
  induction cs with
  | nil => intro line lc h; exact absurd rfl h
  | cons c cs ih =>
    intro line lc _
    rw [printSideInfoLoop_cons]
    cases cs with
    | nil => exact ⟨_, rfl, rfl⟩
    | cons c2 cs2 =>
      obtain ⟨p, hp, hret⟩ := ih
        (if (if line = y then x + t + d + lc else x + lc) - x + 4 > w then line + 1 else line)
        ((if (if line = y then x + t + d + lc else x + lc) - x + 4 > w then 0 else lc) + 1)
        (by simp)
      refine ⟨p, ?_, hret⟩
      rw [printSideInfoLoop_cons] at hp ⊢
      rw [List.getLast?_cons_cons]
      exact hp

theorem printSideInfoLoop_first_row (x y w t d : Int) (cs : List Char) :
    ∀ (lc : Int) (i : Nat) (p : ValuePrint),
      (printSideInfoLoop x y w t d y lc cs).1[i]? = some p →
        (p.line = y ↔ (i = 0 ∨ t + d + lc + i + 3 ≤ w)) ∧
        (p.line = y → p.currentLen = x + t + d + lc + i) ∧ y ≤ p.line := by
  induction cs with
  | nil => intro lc i p h; simp [printSideInfoLoop] at h
  | cons c cs ih =>
    intro lc i p h
    rw [printSideInfoLoop_cons] at h
    simp only [if_true] at h
    cases i with
    | zero =>
      simp only [List.getElem?_cons_zero, Option.some.injEq] at h
      subst h
      simp
    | succ i =>
      simp only [List.getElem?_cons_succ] at h
      by_cases hwrap : x + t + d + lc - x + 4 > w
      · simp only [hwrap, if_true] at h
        have hmem := List.getElem?_mem h
        have := ((printSideInfoLoop_rows x y w t d cs (y + 1) (0 + 1)).2 p hmem).1
        refine ⟨⟨fun hy => by omega, fun hc => ?_⟩, fun hy => by omega, by omega⟩
        rcases hc with hc | hc
        · omega
        · push_cast at hc; omega
      · simp only [hwrap, if_false] at h
        obtain ⟨h1, h2, h3⟩ := ih (lc + 1) i p h
        refine ⟨?_, ?_, h3⟩
        · rw [h1]
          clear h1 h2
          push_cast
          simp only [false_or]
          constructor <;> intro hh <;> omega
        · intro hy; rw [h2 hy]; push_cast; ring

theorem printSideInfoLoop_step (x y w t d : Int) (cs : List Char) :
    ∀ (line lc : Int) (i : Nat) (p q : ValuePrint),
      (printSideInfoLoop x y w t d line lc cs).1[i]? = some p →
      (printSideInfoLoop x y w t d line lc cs).1[i + 1]? = some q →
        q.line = p.line ∨ q.line = p.line + 1 := by
  induction cs with
  | nil => intro line lc i p q h; simp [printSideInfoLoop] at h
  | cons c cs ih =>
    intro line lc i p q hp hq
    rw [printSideInfoLoop_cons] at hp hq
    simp only [List.getElem?_cons_succ] at hq
    cases i with
    | zero =>
      simp only [List.getElem?_cons_zero, Option.some.injEq] at hp
      subst hp
      cases cs with
      | nil => simp [printSideInfoLoop] at hq
      | cons c2 cs2 =>
        rw [printSideInfoLoop_cons] at hq
        simp only [List.getElem?_cons_zero, Option.some.injEq] at hq
        subst hq
        show (if _ then line + 1 else line) = line ∨ (if _ then line + 1 else line) = line + 1
        split_ifs <;> simp
    | succ i =>
      simp only [List.getElem?_cons_succ] at hp
      exact ih _ _ i p q hp hq

theorem guiPrintLoop_row (runeWidth : Char → Int) (y w : Int) (fg bg : Attribute)
    (cs : List Char) :
    ∀ (x : Int), ∀ c ∈ guiPrintLoop runeWidth y w fg bg x cs, c.y = y := by
  induction cs with
  | nil => intro x c h; simp [guiPrintLoop] at h
  | cons a as ih =>
    intro x c h
    by_cases hx : x = w
    · simp only [guiPrintLoop, hx, if_true, List.mem_singleton] at h
      subst h; rfl
    · simp only [guiPrintLoop, hx, if_false, List.mem_cons] at h
      rcases h with h | h
      · subst h; rfl
      · exact ih _ c h

theorem dotLen_eq : ((": ".utf8ByteSize : Nat) : Int) = 2 := by decide

theorem emptyLen_eq : ((("" : String).utf8ByteSize : Nat) : Int) = 0 := by decide

theorem printSideInfo_valueCells (runeWidth : Char → Int) (x y w h : Int) (title msg : String) :
    (printSideInfo runeWidth x y w h title msg).valueCells =
      (printSideInfoLoop x y w title.utf8ByteSize 2 y 0 msg.toList).1.map (ValuePrint.cell w) := by
  simp only [printSideInfo, flatten_cells, dotLen_eq]

theorem printSideInfo_valuePrints (runeWidth : Char → Int) (x y w h : Int) (title msg : String) :
    (printSideInfo runeWidth x y w h title msg).valuePrints =
      (printSideInfoLoop x y w title.utf8ByteSize 2 y 0 msg.toList).1 := by
  simp only [printSideInfo, dotLen_eq]

theorem printSideInfo_line (runeWidth : Char → Int) (x y w h : Int) (title msg : String) :
    (printSideInfo runeWidth x y w h title msg).line =
      (printSideInfoLoop x y w title.utf8ByteSize 2 y 0 msg.toList).2 := by
  simp only [printSideInfo, dotLen_eq]

theorem printSideInfo_rows (runeWidth : Char → Int) (x y w h : Int) (title msg : String) :
    y ≤ (printSideInfo runeWidth x y w h title msg).line ∧
    ∀ c ∈ (printSideInfo runeWidth x y w h title msg).cells,
      y ≤ c.y ∧ c.y ≤ (printSideInfo runeWidth x y w h title msg).line := by
  have hrows := printSideInfoLoop_rows x y w title.utf8ByteSize 2 msg.toList y 0
  rw [← printSideInfo_line runeWidth x y w h title msg] at hrows
  refine ⟨hrows.1, ?_⟩
  intro c hc
  unfold SideInfo.cells at hc
  rw [List.mem_append] at hc
  rcases hc with hc | hc
  · have hy : c.y = y := by
      simp only [printSideInfo, List.mem_append] at hc
      rcases hc with hc | hc
      · exact guiPrintLoop_row _ _ _ _ _ _ _ c hc
      · exact guiPrintLoop_row _ _ _ _ _ _ _ c hc
    rw [hy]
    exact ⟨le_refl _, hrows.1⟩
  · rw [printSideInfo_valueCells, List.mem_map] at hc
    obtain ⟨p, hp, rfl⟩ := hc
    rw [ValuePrint.cell_y]
    exact hrows.2 p hp

/-- Supporting C6: when the loop of `guiPrint` never takes its `x == w`
branch, it writes one cell per character, with that character. -/
theorem guiPrintLoop_not_truncated (runeWidth : Char → Int) (y w : Int) (fg bg : Attribute)
    (cs : List Char) :
    ∀ x : Int, guiPrintTruncates runeWidth w x cs = false →
      (guiPrintLoop runeWidth y w fg bg x cs).map (fun c => c.ch) = cs := by
  induction cs with
  | nil => intro x _; rfl
  | cons a as ih =>
    intro x h
    by_cases hx : x = w
    · simp [guiPrintTruncates, hx] at h
    · simp only [guiPrintTruncates, hx, if_false] at h
      simp only [guiPrintLoop, hx, if_false, List.map_cons, ih _ h]

/-- C6 (amended). Whenever `guiPrint` truncates, its last `SetCell` call writes
the continuation marker at column `w - 1`, whatever the start column and the
widths of the characters: `w` is the boundary column itself, not a width
counted from the start column `x`. -/
theorem guiPrint_marker_at_boundary (runeWidth : Char → Int) (x y w : Int)
    (fg bg : Attribute) (msg : String)
    (h : guiPrintTruncates runeWidth w x msg.toList = true) :
    (guiPrint runeWidth x y w fg bg msg).getLast? = some ⟨w - 1, y, marker, fg, bg⟩ :=
  guiPrintLoop_marker_last runeWidth y w fg bg msg.toList x h

/-- Witness of C6 (amended): ten characters from column 2 with boundary 10. -/
theorem guiPrint_marker_at_boundary_witness :
    guiPrintTruncates (fun _ => 1) 10 2 "abcdefghij".toList = true ∧
    (guiPrint (fun _ => 1) 2 0 10 Attribute.coldef Attribute.coldef "abcdefghij").getLast?
      = some ⟨10 - 1, 0, marker, .coldef, .coldef⟩ :=
  ⟨by decide,
   guiPrint_marker_at_boundary (fun _ => 1) 2 0 10 Attribute.coldef Attribute.coldef "abcdefghij" (by decide)⟩

/-- Counterexample to C6 as stated: printing "abcdefghij" from column `x = 2`
with `w = 10` truncates, the marker is written at column 9, and no cell at
all is written at column `x + w - 1 = 11`. -/
theorem guiPrint_marker_not_at_x_plus_w :
    guiPrintTruncates (fun _ => 1) 10 2 "abcdefghij".toList = true ∧
    guiPrint (fun _ => 1) 2 0 10 Attribute.coldef Attribute.coldef "abcdefghij" =
      [⟨2, 0, 'a', .coldef, .coldef⟩, ⟨3, 0, 'b', .coldef, .coldef⟩,
       ⟨4, 0, 'c', .coldef, .coldef⟩, ⟨5, 0, 'd', .coldef, .coldef⟩,
       ⟨6, 0, 'e', .coldef, .coldef⟩, ⟨7, 0, 'f', .coldef, .coldef⟩,
       ⟨8, 0, 'g', .coldef, .coldef⟩, ⟨9, 0, 'h', .coldef, .coldef⟩,
       ⟨9, 0, marker, .coldef, .coldef⟩] ∧
    (9 : Int) ≠ 2 + 10 - 1 := by
  decide

/-- C1 (amended). `printSideInfo` with an empty label and anchor `x = 0`, for
every width `w`: every character of the value gets one cell; character `i` is
painted on the label row `y` exactly when `i = 0` or `i < w - 4` (the ": "
separator takes two columns and the wrap test keeps four more), and then, for
`i < w - 4`, it is the character itself at column `2 + i`; every other
character is painted below row `y`; and each character is on the row of the
one before it or on the next row. -/
theorem printSideInfo_label_row (runeWidth : Char → Int) (y w h : Int) (msg : String) :
    (printSideInfo runeWidth 0 y w h "" msg).valueCells.length = msg.length ∧
    ∀ (i : Nat) (ch : Char), msg.toList[i]? = some ch →
      ∃ cell, (printSideInfo runeWidth 0 y w h "" msg).valueCells[i]? = some cell ∧
        (cell.y = y ↔ (i = 0 ∨ (i : Int) < w - 4)) ∧ y ≤ cell.y ∧
        ((i : Int) < w - 4 → cell = ⟨2 + i, y, ch, .AttrBold, .coldef⟩) ∧
        ∀ next, (printSideInfo runeWidth 0 y w h "" msg).valueCells[i + 1]? = some next →
          next.y = cell.y ∨ next.y = cell.y + 1 := by
  rw [printSideInfo_valueCells, emptyLen_eq]
  have hchars := printSideInfoLoop_chars 0 y w 0 2 msg.toList y 0
  constructor
  · rw [List.length_map]
    have := congrArg List.length hchars
    rw [List.length_map] at this
    exact this
  · intro i ch hi
    have hi2 : ((printSideInfoLoop 0 y w 0 2 y 0 msg.toList).1.map (fun p => p.c))[i]? = some ch := by
      rw [hchars]; exact hi
    rw [List.getElem?_map, Option.map_eq_some'] at hi2
    obtain ⟨p, hp, hpc⟩ := hi2
    obtain ⟨hrow, hcol, hge⟩ := printSideInfoLoop_first_row 0 y w 0 2 msg.toList 0 i p hp
    refine ⟨p.cell w, ?_, ?_, ?_, ?_, ?_⟩
    · rw [List.getElem?_map, hp]; rfl
    · rw [ValuePrint.cell_y, hrow]
      constructor <;> intro hh <;> omega
    · rw [ValuePrint.cell_y]; exact hge
    · intro hlt
      have hline : p.line = y := hrow.mpr (Or.inr (by omega))
      have hcl : p.currentLen = 2 + i := by rw [hcol hline]; ring
      have hne : p.currentLen ≠ w := by omega
      unfold ValuePrint.cell
      rw [if_neg hne, hcl, hline, hpc]
    · intro next hnext
      rw [List.getElem?_map, Option.map_eq_some'] at hnext
      obtain ⟨q, hq, rfl⟩ := hnext
      rw [ValuePrint.cell_y, ValuePrint.cell_y]
      exact printSideInfoLoop_step 0 y w 0 2 msg.toList y 0 i p q hp hq

/-- Counterexample to C1 as stated: "hello world" with an empty label, anchor
`(0, 0)` and `w = 8` is painted as "hell" on row 0, "o wor" on row 1 and "ld"
on row 2; character 4 is on row 1 while `0 + floor(4 / 8) = 0`. -/
theorem printSideInfo_hello_world_rows :
    (printSideInfo (fun _ => 1) 0 0 8 0 "" "hello world").valueCells.map
        (fun c => (c.ch, c.x, c.y)) =
      [('h', 2, 0), ('e', 3, 0), ('l', 4, 0), ('l', 5, 0), ('o', 1, 1), (' ', 2, 1),
       ('w', 3, 1), ('o', 4, 1), ('r', 5, 1), ('l', 1, 2), ('d', 2, 2)] ∧
    (0 : Int) + (4 : Int) / 8 ≠ 1 := by
  decide

/-- C2. When the label and the ": " separator fit (`len(title) + 2 < w`), every
cell `printSideInfo` writes for the value is in a column `col` with
`col - x < w`. -/
theorem printSideInfo_value_within_width (runeWidth : Char → Int) (x y w h : Int)
    (title msg : String) (hfit : (title.utf8ByteSize : Int) + 2 < w) :
    ∀ c ∈ (printSideInfo runeWidth x y w h title msg).valueCells, c.x - x < w := by
  intro c hc
  rw [printSideInfo_valueCells, List.mem_map] at hc
  obtain ⟨p, hp, rfl⟩ := hc
  have hoff := printSideInfoLoop_offset_lt x y w title.utf8ByteSize 2 (by omega)
    msg.toList y 0 (le_refl _) (by rw [if_pos rfl]; omega) p hp
  have := ValuePrint.cell_x_le w p
  omega

/-- Witness of C2: label "By", a value that wraps, anchor `(20, 1)`, `w = 12`. -/
theorem printSideInfo_value_within_width_witness :
    (("By".utf8ByteSize : Nat) : Int) + 2 < 12 ∧
    ∀ c ∈ (printSideInfo (fun _ => 1) 20 1 12 0 "By" "dexidrina and others").valueCells,
      c.x - 20 < 12 :=
  ⟨by decide,
   printSideInfo_value_within_width (fun _ => 1) 20 1 12 0 "By" "dexidrina and others"
     (by decide)⟩

/-- Supporting C3: what `printSideInfo` returns on every input.  For an empty
value it is the label row `y`.  For a non-empty value it is the row on which
the last character was painted, except when that last character itself met
the wrap test `currentLen - x + 4 > w`: then the trailing `line++` has run
and the row below is returned. -/
theorem printSideInfo_returned_row (runeWidth : Char → Int) (x y w h : Int)
    (title msg : String) :
    (msg.toList = [] ∧ (printSideInfo runeWidth x y w h title msg).valueCells = [] ∧
      (printSideInfo runeWidth x y w h title msg).line = y) ∨
    (msg.toList ≠ [] ∧ ∃ p cell,
      (printSideInfo runeWidth x y w h title msg).valuePrints.getLast? = some p ∧
      (printSideInfo runeWidth x y w h title msg).valueCells.getLast? = some cell ∧
      cell.y = p.line ∧
      (printSideInfo runeWidth x y w h title msg).line =
        if p.currentLen - x + 4 > w then cell.y + 1 else cell.y) := by
  rw [printSideInfo_valueCells, printSideInfo_valuePrints, printSideInfo_line]
  by_cases hm : msg.toList = []
  · left
    rw [hm]
    exact ⟨rfl, rfl, rfl⟩
  · right
    obtain ⟨p, hp, hret⟩ :=
      printSideInfoLoop_last x y w title.utf8ByteSize 2 msg.toList y 0 hm
    refine ⟨hm, p, p.cell w, hp, ?_, ValuePrint.cell_y w p, ?_⟩
    · rw [List.getLast?_map, hp]; rfl
    · rw [ValuePrint.cell_y]; exact hret

/-- C3 (the code at the failing input). The value "hell" with an empty label,
anchor `(0, 0)` and `w = 8` has its last character painted on row 0, at
column 5, and `printSideInfo` returns row 1: the last character met the wrap
test, so `line++` ran with no character left to paint on the new row. -/
theorem printSideInfo_returns_row_below :
    (printSideInfo (fun _ => 1) 0 0 8 0 "" "hell").valueCells.getLast?
      = some ⟨5, 0, 'l', .AttrBold, .coldef⟩ ∧
    (printSideInfo (fun _ => 1) 0 0 8 0 "" "hell").line = 1 := by
  decide

/-- C4 (the code at the failing input). The value "hello" with an empty label,
anchor `(20, 3)` and `w = 8`: "hell" goes on row 3 and the first character of
the continuation row 4 is written at column 21, one column right of the
anchor column 20. -/
theorem printSideInfo_continuation_starts_right_of_anchor :
    (printSideInfo (fun _ => 1) 20 3 8 0 "" "hello").valueCells =
      [⟨22, 3, 'h', .AttrBold, .coldef⟩, ⟨23, 3, 'e', .AttrBold, .coldef⟩,
       ⟨24, 3, 'l', .AttrBold, .coldef⟩, ⟨25, 3, 'l', .AttrBold, .coldef⟩,
       ⟨21, 4, 'o', .AttrBold, .coldef⟩] := by
  decide

/-- C10. The four labeled fields of `sidebarDraw`, each a `printSideInfo` call
at its anchor row: every cell of a field is on a row between the field's
anchor row and the row `printSideInfo` returns for it, the next field's
anchor row is that returned row plus 2, and so the rows of a field all lie
above the rows of every later field. -/
theorem sidebarDraw_fields_disjoint (runeWidth : Char → Int) (translate : Translation)
    (totalW totalH : Int) (cur : Script) :
    ∃ f1 f2 f3 f4 : SideField,
      sidebarFields runeWidth translate totalW totalH cur = [f1, f2, f3, f4] ∧
      f1.info = printSideInfo runeWidth (totalW - totalW.tdiv 3 + 2) f1.anchor
        (totalW.tdiv 3) totalH translate.SidebarTitle cur.Name ∧
      f2.info = printSideInfo runeWidth (totalW - totalW.tdiv 3 + 2) f2.anchor
        (totalW.tdiv 3) totalH translate.SidebarBy cur.User ∧
      f3.info = printSideInfo runeWidth (totalW - totalW.tdiv 3 + 2) f3.anchor
        (totalW.tdiv 3) totalH translate.SidebarTags cur.Tags ∧
      f4.info = printSideInfo runeWidth (totalW - totalW.tdiv 3 + 2) f4.anchor
        (totalW.tdiv 3) totalH translate.SidebarDesc cur.Desc ∧
      (∀ f ∈ [f1, f2, f3, f4], ∀ c ∈ f.info.cells, f.anchor ≤ c.y ∧ c.y ≤ f.info.line) ∧
      f2.anchor = f1.info.line + 2 ∧ f3.anchor = f2.info.line + 2 ∧
      f4.anchor = f3.info.line + 2 ∧
      List.Pairwise (fun f g => ∀ c ∈ f.info.cells, ∀ d ∈ g.info.cells, c.y < d.y)
        [f1, f2, f3, f4] := by
  refine ⟨_, _, _, _, rfl, rfl, rfl, rfl, rfl, ?_, ?_, ?_, ?_, ?_⟩
  · intro f hf c hc
    simp only [List.mem_cons, List.mem_singleton, List.not_mem_nil, or_false] at hf
    rcases hf with rfl | rfl | rfl | rfl <;> dsimp only at hc ⊢
    · have := (printSideInfo_rows _ _ _ _ _ _ _).2 c hc
      omega
    · exact (printSideInfo_rows _ _ _ _ _ _ _).2 c hc
    · exact (printSideInfo_rows _ _ _ _ _ _ _).2 c hc
    · exact (printSideInfo_rows _ _ _ _ _ _ _).2 c hc
  · dsimp only
    omega
  · dsimp only
    omega
  · dsimp only
    omega
  · dsimp only
    have r1 := printSideInfo_rows runeWidth (totalW - totalW.tdiv 3 + 2) (totalH - totalH + 1)
      (totalW.tdiv 3) totalH translate.SidebarTitle cur.Name
    generalize printSideInfo runeWidth (totalW - totalW.tdiv 3 + 2) (totalH - totalH + 1)
      (totalW.tdiv 3) totalH translate.SidebarTitle cur.Name = i1 at r1 ⊢
    have r2 := printSideInfo_rows runeWidth (totalW - totalW.tdiv 3 + 2)
      (totalH - totalH + 2 + i1.line) (totalW.tdiv 3) totalH translate.SidebarBy cur.User
    generalize printSideInfo runeWidth (totalW - totalW.tdiv 3 + 2)
      (totalH - totalH + 2 + i1.line) (totalW.tdiv 3) totalH translate.SidebarBy cur.User
      = i2 at r2 ⊢
    have r3 := printSideInfo_rows runeWidth (totalW - totalW.tdiv 3 + 2)
      (totalH - totalH + 2 + i2.line) (totalW.tdiv 3) totalH translate.SidebarTags cur.Tags
    generalize printSideInfo runeWidth (totalW - totalW.tdiv 3 + 2)
      (totalH - totalH + 2 + i2.line) (totalW.tdiv 3) totalH translate.SidebarTags cur.Tags
      = i3 at r3 ⊢
    have r4 := printSideInfo_rows runeWidth (totalW - totalW.tdiv 3 + 2)
      (totalH - totalH + 2 + i3.line) (totalW.tdiv 3) totalH translate.SidebarDesc cur.Desc
    generalize printSideInfo runeWidth (totalW - totalW.tdiv 3 + 2)
      (totalH - totalH + 2 + i3.line) (totalW.tdiv 3) totalH translate.SidebarDesc cur.Desc
      = i4 at r4 ⊢
    simp only [List.pairwise_cons, List.mem_cons, List.mem_singleton, List.not_mem_nil,
      or_false, forall_eq_or_imp, forall_eq, IsEmpty.forall_iff, implies_true,
      List.Pairwise.nil, and_true]
    refine ⟨⟨?_, ?_, ?_⟩, ⟨?_, ?_⟩, ?_⟩ <;> intro c hc d hd
    · have a := (r1.2 c hc).2; have b := (r2.2 d hd).1; omega
    · have a := (r1.2 c hc).2; have b := (r3.2 d hd).1; have := r2.1; omega
    · have a := (r1.2 c hc).2; have b := (r4.2 d hd).1; have := r2.1; have := r3.1; omega
    · have a := (r2.2 c hc).2; have b := (r3.2 d hd).1; omega
    · have a := (r2.2 c hc).2; have b := (r4.2 d hd).1; have := r3.1; omega
    · have a := (r3.2 c hc).2; have b := (r4.2 d hd).1; omega

/-- C7 (the code at the failing input). Two scripts, already in sorted order,
with `PositionUpper = Position = 1` and a list area two rows high: the loop
draws entry 1 on row 0 and then reads `Scripts[2]`, outside the slice, which
is a run-time panic; the claim asks for `min(2, 2 - 1) = 1` entry and no read
outside `Scripts`. -/
theorem listScripts_reads_past_the_end :
    listScripts (fun _ => 1) id (fun s => s.Name) 30 2
      ⟨[⟨"a", "", "", ""⟩, ⟨"b", "", "", ""⟩], 1, 1, "t"⟩ = none := by
  decide

/-- C8 (the code at the failing input). Three fields; a Tab key moves the
menu from field 0 to field 1; an event-source error event that follows moves
it on to field 2, because `action` still holds `actionTab`. -/
theorem editableMenu_error_event_after_tab_advances :
    editableMenu ["t1", "t2", "t3"] ["a", "b", "c"]
        [.polled ⟨.EventKey, .KeyTab, Char.ofNat 0, ""⟩]
      = .waiting ⟨["a", "b", "c"], ⟨['b'], 0⟩, 1, actionTab⟩ ∧
    editableMenu ["t1", "t2", "t3"] ["a", "b", "c"]
        [.polled ⟨.EventKey, .KeyTab, Char.ofNat 0, ""⟩,
         .polled ⟨.EventError, .other, Char.ofNat 0, "bad event"⟩]
      = .waiting ⟨["a", "b", "c"], ⟨['c'], 0⟩, 2, actionTab⟩ := by
  decide

/-- C9 (the code at the failing input). One field holding "x"; the key `a`
and then Esc: `editableMenu` returns without error and the field holds "ax",
not the "x" it held on entry. -/
theorem editableMenu_esc_keeps_typed_edits :
    editableMenu ["Name"] ["x"]
        [.polled ⟨.EventKey, .other, 'a', ""⟩,
         .polled ⟨.EventKey, .KeyEsc, Char.ofNat 0, ""⟩]
      = .returned none ["ax"] := by
  decide

theorem printSideInfoLoop_continuation (x y w t d : Int) (cs : List Char) :
    ∀ (line lc : Int) (i : Nat) (p q : ValuePrint), y ≤ line →
      (printSideInfoLoop x y w t d line lc cs).1[i]? = some p →
      (printSideInfoLoop x y w t d line lc cs).1[i + 1]? = some q →
        q.line ≠ p.line → q.currentLen = x + 1 := by
  induction cs with
  | nil => intro line lc i p q _ h; simp [printSideInfoLoop] at h
  | cons c cs ih =>
    intro line lc i p q hline hp hq hne
    rw [printSideInfoLoop_cons] at hp hq
    simp only [List.getElem?_cons_succ] at hq
    cases i with
    | zero =>
      simp only [List.getElem?_cons_zero, Option.some.injEq] at hp
      subst hp
      cases cs with
      | nil => simp [printSideInfoLoop] at hq
      | cons c2 cs2 =>
        rw [printSideInfoLoop_cons] at hq
        simp only [List.getElem?_cons_zero, Option.some.injEq] at hq
        subst hq
        simp only at hne ⊢
        by_cases hwrap : (if line = y then x + t + d + lc else x + lc) - x + 4 > w
        · have hl : ¬ line + 1 = y := by omega
          simp only [hwrap, if_true, hl, if_false]
          ring
        · simp only [hwrap, if_false] at hne
          exact absurd rfl hne
    | succ i =>
      simp only [List.getElem?_cons_succ] at hp
      refine ih _ _ i p q ?_ hp hq hne
      split <;> omega

/-- Supporting C4: in every `printSideInfo` call, whenever a character of the
value is painted on another row than the character before it, `guiPrint` is
called for it at column `x + 1`. -/
theorem printSideInfo_continuation_column (runeWidth : Char → Int) (x y w h : Int)
    (title msg : String) (i : Nat) (p q : ValuePrint)
    (hp : (printSideInfo runeWidth x y w h title msg).valuePrints[i]? = some p)
    (hq : (printSideInfo runeWidth x y w h title msg).valuePrints[i + 1]? = some q)
    (hne : q.line ≠ p.line) : q.currentLen = x + 1 := by
  rw [printSideInfo_valuePrints] at hp hq
  exact printSideInfoLoop_continuation x y w _ 2 msg.toList y 0 i p q (le_refl _) hp hq hne

theorem listScriptsLoop_panics (runeWidth : Char → Int) (getName : Script → String)
    (scripts : List Script) (position x y w h : Int) :
    ∀ (remaining : Nat) (i c : Int) (k : Nat), 0 ≤ i → k < remaining → c + k < h →
      (scripts.length : Int) ≤ i + k →
      listScriptsLoop runeWidth getName scripts position x y w h remaining i c = none := by
  intro remaining
  induction remaining with
  | zero => intro i c k _ hk; omega
  | succ n ih =>
    intro i c k hi hk hc hlen
    have hch : c < h := by omega
    have hi0 : ¬ i < 0 := by omega
    simp only [listScriptsLoop, hch, if_true, hi0, if_false]
    cases k with
    | zero =>
      have : scripts[i.toNat]? = none := by
        rw [List.getElem?_eq_none_iff]
        simp only [Nat.cast_zero, add_zero] at hlen
        omega
      rw [this]
    | succ k =>
      cases scripts[i.toNat]? with
      | none => rfl
      | some s =>
        have := ih (i + 1) (c + 1) k (by omega) (by omega)
          (by push_cast at hc; omega) (by push_cast at hlen; omega)
        simp only [this]

/-- Supporting C7: whenever the list is scrolled (`0 < PositionUpper`) and
the list area is high enough to reach past the last script
(`len(Scripts) < PositionUpper + h`), `listScripts` reads an index outside
`Scripts`. -/
theorem listScripts_panics_when_scrolled (runeWidth : Char → Int)
    (sortScripts : List Script → List Script) (getName : Script → String)
    (totalW totalH : Int) (s : State)
    (hpos : 0 < s.PositionUpper)
    (hup : s.PositionUpper ≤ (sortScripts s.Scripts).length)
    (hh : ((sortScripts s.Scripts).length : Int) < s.PositionUpper + totalH) :
    listScripts runeWidth sortScripts getName totalW totalH s = none := by
  unfold listScripts
  refine listScriptsLoop_panics runeWidth getName _ _ _ _ _ _ _ _ _
    ((sortScripts s.Scripts).length - s.PositionUpper).toNat (by omega) ?_ ?_ ?_
  · omega
  · omega
  · omega

end DuckyManager
